import Mathlib

/-!
Verification development for the snyk-refresh target reconciliation tool.

The Go sources are shallowly embedded as executable Lean definitions:
`isAllowedNextURL`, the paged fetch loops (`FetchProjects`, `FetchTargets`),
the dedup grouping of `runDedup`, the phase-2 orphaned-target cleanup, and
the manifest-building loop of `runRefresh`.  The origin-normalization and
identity functions (`IsSCMOrigin`, `OriginToIntegrationKey`,
`ProjectToTarget`, `TargetID`) have no source file in the repository
snapshot (only their tests), so they are modelled from the specification.
-/

/-! ## Data model (from `internal` package) -/

/-- An organization, as in the Go `Org` struct. -/
structure Org where
  ID : String
  Name : String
  Slug : String
deriving Repr, DecidableEq

/-- A project, as in the Go `Project` struct. -/
structure Project where
  ID : String
  Name : String
  Origin : String
  Branch : String
  TargetReference : String
  Created : String
  TargetID : String
deriving Repr, DecidableEq

/-- A repo-level target from the REST API, as in the Go `APITarget` struct. -/
structure APITarget where
  ID : String
  DisplayName : String
  IntegrationID : String
  IntegrationType : String
  CreatedAt : String
deriving Repr, DecidableEq

/-! ## URL model

A small model of the parts of Go's `net/url.Parse` used by
`isAllowedNextURL`: scheme extraction (lowercased, as `Parse` does),
authority extraction after `"//"`, userinfo stripping at the last `'@'`,
and `Hostname()` (strip brackets and a trailing `:digits` port; a
malformed port is a parse error).  Control characters in the URL are a
parse error, as in `net/url`. -/

/-- Model of `strings.HasPrefix(s, "/")`: the string begins with a slash. -/
def startsWithSlash (s : String) : Bool :=
  match s.data with
  | '/' :: _ => true
  | _ => false

/-- Model of `strings.HasSuffix(s, t)`: `t` is a suffix of `s`. -/
def strEndsWith (s t : String) : Bool := t.data.isSuffixOf s.data

/-- Scheme and hostname of a parsed URL. -/
structure URLParts where
  scheme : String
  hostname : String
deriving Repr, DecidableEq

/-- Split a character list at the first occurrence of `sep`:
`breakAt sep l = some (before, after)` or `none` when `sep` is absent. -/
def breakAt (sep : Char) : List Char → Option (List Char × List Char)
  | [] => none
  | c :: cs =>
    if c = sep then some ([], cs)
    else match breakAt sep cs with
      | none => none
      | some (a, b) => some (c :: a, b)

/-- Control characters are rejected by `net/url.Parse`. -/
def isCtlChar (c : Char) : Bool := c.val < 32 || c.val == 127

/-- The authority component: everything up to the first `/`, `?` or `#`. -/
def authorityOf (rest : List Char) : List Char :=
  rest.takeWhile (fun c => c ≠ '/' && c ≠ '?' && c ≠ '#')

/-- Strip the userinfo part of an authority (everything up to the last `@`). -/
def dropUserinfo (auth : List Char) : List Char :=
  match breakAt '@' auth.reverse with
  | none => auth
  | some (revHost, _) => revHost.reverse

/-- An optional port is empty or a colon followed by digits only. -/
def validPort : List Char → Bool
  | [] => true
  | ':' :: ds => ds.all (·.isDigit)
  | _ => false

/-- The `Hostname()` of a host[:port] string; `none` on a malformed port. -/
def hostnameOf (hostport : List Char) : Option (List Char) :=
  match hostport with
  | '[' :: rest =>
    match rest.dropWhile (· ≠ ']') with
    | ']' :: p => if validPort p then some (rest.takeWhile (· ≠ ']')) else none
    | _ => none
  | _ =>
    if validPort (hostport.dropWhile (· ≠ ':')) then
      some (hostport.takeWhile (· ≠ ':'))
    else none

/-- Model of `url.Parse` restricted to the scheme and hostname. -/
def parseURL (s : String) : Option URLParts :=
  if s.data.any isCtlChar then none
  else
    match breakAt ':' s.data with
    | none => some ⟨"", ""⟩
    | some (sch, rest) =>
      match rest with
      | '/' :: '/' :: rest2 =>
        match hostnameOf (dropUserinfo (authorityOf rest2)) with
        | none => none
        | some h => some ⟨⟨sch.map Char.toLower⟩, ⟨h⟩⟩
      | _ => some ⟨⟨sch.map Char.toLower⟩, ""⟩

/-- From `api.go`, `isAllowedNextURL`: validates a pagination URL to prevent
SSRF.  Allows relative URLs (starting with `/`) and absolute HTTPS URLs on
the same host or a dot-boundary subdomain of it. -/
def isAllowedNextURL (nextURL allowedHost : String) : Bool :=
  if nextURL = "" then false
  else if startsWithSlash nextURL then true
  else
    match parseURL nextURL with
    | none => false
    | some u =>
      if u.scheme ≠ "https" then false
      else u.hostname == allowedHost || strEndsWith u.hostname ("." ++ allowedHost)

/-- The spec's wording of the pagination-link policy: a continuation is
honored iff it is a root-relative path, or it parses as an absolute HTTPS
URL whose hostname equals the original host or ends with `"." ++ host`. -/
def allowedNextSpec (nextURL allowedHost : String) : Prop :=
  startsWithSlash nextURL = true ∨
  ∃ u, parseURL nextURL = some u ∧ u.scheme = "https" ∧
    (u.hostname = allowedHost ∨ strEndsWith u.hostname ("." ++ allowedHost) = true)

/-! ## Paged fetch loop (from `FetchProjects` / `FetchTargets` in `api.go`)

The HTTP layer is abstracted as a `server` function from request URL to a
decoded page: status code, raw body, decoded records, and the optional
`links.next` continuation.  The loop is given fuel (the Go loop has no
bound; every theorem below is decided within the supplied fuel). -/

/-- One decoded response page. -/
structure PageResponse (α : Type) where
  status : Nat
  body : String
  data : List α
  next : Option String

/-- Outcome of a paged fetch: the full record list, or status plus body. -/
inductive FetchResult (α : Type) where
  | ok (records : List α)
  | fail (status : Nat) (body : String)
deriving Repr, DecidableEq

/-- The shared pagination loop of `FetchProjects` and `FetchTargets`:
404 returns the records accumulated so far, any other non-200 status fails
with status and body, and the `links.next` continuation is followed only
when non-empty and accepted by `isAllowedNextURL` (a relative continuation
is resolved against `baseURL`); otherwise the loop stops successfully. -/
def fetchPagedGo {α : Type} (server : String → PageResponse α) (baseURL apiHost : String) :
    Nat → String → List α → FetchResult α
  | 0, _, acc => .ok acc
  | fuel + 1, url, acc =>
    let resp := server url
    if resp.status = 404 then .ok acc
    else if resp.status ≠ 200 then .fail resp.status resp.body
    else
      let acc2 := acc ++ resp.data
      match resp.next with
      | none => .ok acc2
      | some nextStr =>
        if nextStr ≠ "" then
          if isAllowedNextURL nextStr apiHost then
            fetchPagedGo server baseURL apiHost fuel
              (if startsWithSlash nextStr then baseURL ++ nextStr else nextStr) acc2
          else .ok acc2
        else .ok acc2

/-- From `api.go`, `FetchProjects`, over the abstract server. -/
def FetchProjects (server : String → PageResponse Project)
    (baseURL apiHost firstURL : String) (fuel : Nat) : FetchResult Project :=
  fetchPagedGo server baseURL apiHost fuel firstURL []

/-- From `api.go`, `FetchTargets`, over the abstract server. -/
def FetchTargets (server : String → PageResponse APITarget)
    (baseURL apiHost firstURL : String) (fuel : Nat) : FetchResult APITarget :=
  fetchPagedGo server baseURL apiHost fuel firstURL []

/-! ## Dedup grouping (from `runDedup` in `main.go`) -/

/-- The projects of one name group: `runDedup` groups projects by name
only (origin is deliberately not part of the key). -/
def groupOf (projects : List Project) (name : String) : List Project :=
  projects.filter (fun p => p.Name == name)

/-- The comparator of `runDedup`'s sort: ascending creation timestamp. -/
def createdLE (a b : Project) : Prop := a.Created ≤ b.Created

instance : DecidableRel createdLE :=
  fun a b => inferInstanceAs (Decidable (a.Created ≤ b.Created))

instance : IsTotal Project createdLE := ⟨fun a b => le_total a.Created b.Created⟩

instance : IsTrans Project createdLE := ⟨fun _ _ _ h1 h2 => le_trans h1 h2⟩

/-- The `sort.Slice(projs, ...)` call sorting by `Created` ascending. -/
def sortByCreated (l : List Project) : List Project :=
  List.insertionSort createdLE l

/-- From `main.go`, `duplicateGroup`: a name key and its projects sorted by
creation timestamp; index 0 is the retained original. -/
structure duplicateGroup where
  key : String
  projects : List Project
deriving Repr, DecidableEq

/-- The duplicate groups `runDedup` finds in one org's project list:
one group per name occurring on at least two projects, sorted ascending
by creation timestamp. -/
def duplicateGroupsOf (projects : List Project) : List duplicateGroup :=
  ((projects.map (fun p => p.Name)).dedup).filterMap (fun n =>
    if 2 ≤ (groupOf projects n).length then
      some ⟨n, sortByCreated (groupOf projects n)⟩
    else none)

/-- The retained original of a duplicate group (`g.projects[0]`). -/
def keepOf (g : duplicateGroup) : Option Project := g.projects.head?

/-- The removal candidates of a duplicate group (`g.projects[1:]`). -/
def candidatesOf (g : duplicateGroup) : List Project := g.projects.tail

/-! ## Phase-2 orphaned-target cleanup (from `runDedup` in `main.go`) -/

/-- The target IDs still referenced by at least one project after the
re-fetch (`activeTargets` in `runDedup`; an empty `TargetID` is skipped). -/
def activeTargetIDs (projects : List Project) : List String :=
  (projects.filter (fun p => p.TargetID != "")).map (fun p => p.TargetID)

/-- The targets sharing one display name (`targetsByName` in `runDedup`). -/
def targetsWithName (targets : List APITarget) (name : String) : List APITarget :=
  targets.filter (fun t => t.DisplayName == name)

/-- Phase 2 marks a target for removal when its display-name group has at
least two members and no re-fetched project still references it. -/
def isPhase2Candidate (targets : List APITarget) (projects : List Project)
    (t : APITarget) : Bool :=
  decide (2 ≤ (targetsWithName targets t.DisplayName).length) &&
    !((activeTargetIDs projects).contains t.ID)

/-- The empty duplicate targets phase 2 removes (or reports in dry-run). -/
def phase2Candidates (targets : List APITarget) (projects : List Project) :
    List APITarget :=
  targets.filter (isPhase2Candidate targets projects)

/-- The orgs phase 2 visits (`orgsAffected` in `runDedup`): exactly those
whose phase-1 scan produced at least one duplicate group. -/
def orgsAffected (orgResults : List (String × List Project)) : List String :=
  (orgResults.filter (fun r => !(duplicateGroupsOf r.2).isEmpty)).map (fun r => r.1)

/-- All `(org, target)` deletion requests phase 2 issues, given the targets
fetched and the projects re-fetched per org.  Orgs outside `orgsAffected`
are never visited, so none of their targets are fetched or deleted. -/
def phase2Deletions (fetchedTargets : String → List APITarget)
    (refetchedProjects : String → List Project)
    (orgResults : List (String × List Project)) : List (String × String) :=
  (orgsAffected orgResults).flatMap (fun oid =>
    (phase2Candidates (fetchedTargets oid) (refetchedProjects oid)).map
      (fun t => (oid, t.ID)))

/-! ## Origin normalization and identity (modelled from the spec)

The repository snapshot contains the tests of `targets.go` but not the
file itself, so `IsSCMOrigin`, `OriginToIntegrationKey`, `ProjectToTarget`
and `TargetID` below are modelled from the specification. -/

/-- Modelled from the spec: `CanonicalTarget`, a sum of the two shapes —
`{owner, name, branch}` for path-style providers and
`{projectKey, repoSlug}` for the key/slug-style provider. -/
inductive Target where
  | path (owner name branch : String)
  | keySlug (projectKey repoSlug : String)
deriving Repr, DecidableEq

/-- Modelled from the spec: the fixed allowlist of supported origin tags
(missing `targets.go`; list taken from the spec's allowlist and the
repository's test and README enumeration). -/
def supportedSCMOrigins : List String :=
  ["github", "github-cloud-app", "github-enterprise", "bitbucket-cloud",
   "bitbucket-cloud-app", "bitbucket-connect-app", "bitbucket-server",
   "azure-repos"]

/-- The path-style members of the allowlist; `bitbucket-server` is the one
key/slug-style origin. -/
def pathStyleOrigins : List String :=
  ["github", "github-cloud-app", "github-enterprise", "bitbucket-cloud",
   "bitbucket-cloud-app", "bitbucket-connect-app", "azure-repos"]

/-- Modelled from the spec: `IsSCMOrigin` (missing `targets.go`) tests
membership in the fixed allowlist; `gitlab` and unknown tags are not in it. -/
def IsSCMOrigin (origin : String) : Bool := supportedSCMOrigins.contains origin

/-- Modelled from the spec: `OriginToIntegrationKey` (missing `targets.go`)
aliases the one cloud connect-app origin to its canonical connector key and
maps every other origin to itself. -/
def OriginToIntegrationKey (origin : String) : String :=
  if origin == "bitbucket-cloud-app" then "bitbucket-connect-app" else origin

/-- Modelled from the spec: `ProjectToTarget` (missing `targets.go`).
The raw name is split at the first `/` into owner and remainder (no `/`
is a parse failure), the remainder is cut at the `:` terminator, and a
parenthetical decoration after the repo is stripped.  Path-style origins
produce `{owner, name, branch}` with the branch hint taken verbatim (the
empty hint is the zero value); `bitbucket-server` produces
`{projectKey, repoSlug}` and ignores the branch hint; any other origin
yields no target. -/
def ProjectToTarget (rawName origin branchHint : String) : Option Target :=
  match breakAt '/' rawName.data with
  | none => none
  | some (ownerChars, rest) =>
    if pathStyleOrigins.contains origin then
      some (.path ⟨ownerChars⟩ ⟨(rest.takeWhile (· ≠ ':')).takeWhile (· ≠ '(')⟩
        branchHint)
    else if origin == "bitbucket-server" then
      some (.keySlug ⟨ownerChars⟩ ⟨rest.takeWhile (· ≠ ':')⟩)
    else none

/-- Modelled from the spec: `TargetID` (missing `targets.go`) joins the
account ID, the connector ID and the target's discriminating fields with
`":"`, in fixed per-shape order (path-style: name, owner, branch;
key/slug-style: key, slug). -/
def TargetID (orgID integrationID : String) (t : Target) : String :=
  match t with
  | .path owner name branch =>
    orgID ++ ":" ++ integrationID ++ ":" ++ name ++ ":" ++ owner ++ ":" ++ branch
  | .keySlug key slug =>
    orgID ++ ":" ++ integrationID ++ ":" ++ key ++ ":" ++ slug

/-! ## Manifest construction (from `runRefresh` in `main.go`) -/

/-- From the `internal` package, `ImportTarget`: one manifest row. -/
structure ImportTarget where
  target : Target
  OrgID : String
  IntegrationID : String
deriving Repr, DecidableEq

/-- The identity triple's string form of a manifest entry. -/
def entryTID (e : ImportTarget) : String :=
  TargetID e.OrgID e.IntegrationID e.target

/-- One iteration of the `runRefresh` project loop: skip `gitlab`, skip
non-SCM origins, apply the integration-type filter, look up the connector
ID (a missing or empty ID is a skip), fall back from `Branch` to
`TargetReference`, normalize, and return the dedup key with the entry. -/
def convertProject (orgID : String) (integrations : String → Option String)
    (integrationTypeFilter : String) (p : Project) :
    Option (String × ImportTarget) :=
  if p.Origin == "gitlab" then none
  else if !(IsSCMOrigin p.Origin) then none
  else if integrationTypeFilter != "" && p.Origin != integrationTypeFilter &&
      OriginToIntegrationKey p.Origin != integrationTypeFilter then none
  else
    match integrations (OriginToIntegrationKey p.Origin) with
    | none => none
    | some integrationID =>
      if integrationID == "" then none
      else
        match ProjectToTarget p.Name p.Origin
            (if p.Branch == "" then p.TargetReference else p.Branch) with
        | none => none
        | some t =>
          some (TargetID orgID integrationID t, ⟨t, orgID, integrationID⟩)

/-- The `seen`-map loop of `runRefresh`: a converted project is appended
only when its `TargetID` has not been seen before in this org. -/
def buildOrgEntriesAux (orgID : String) (integrations : String → Option String)
    (filt : String) : List Project → List String → List ImportTarget
  | [], _ => []
  | p :: ps, seen =>
    match convertProject orgID integrations filt p with
    | none => buildOrgEntriesAux orgID integrations filt ps seen
    | some (tid, entry) =>
      if seen.contains tid then buildOrgEntriesAux orgID integrations filt ps seen
      else entry :: buildOrgEntriesAux orgID integrations filt ps (tid :: seen)

/-- The manifest entries one org contributes (`res.targets` in `runRefresh`). -/
def buildOrgEntries (orgID : String) (integrations : String → Option String)
    (filt : String) (projects : List Project) : List ImportTarget :=
  buildOrgEntriesAux orgID integrations filt projects []

/-- The spec's wording of manifest dedup: keep the first entry per key and
silently drop later entries carrying an already-seen key. -/
def firstSeenByKey : List (String × ImportTarget) → List String → List ImportTarget
  | [], _ => []
  | (k, e) :: rest, seen =>
    if seen.contains k then firstSeenByKey rest seen
    else e :: firstSeenByKey rest (k :: seen)

/-- The per-org input of one refresh run. -/
structure OrgInput where
  org : Org
  integrations : String → Option String
  projects : List Project

/-- All manifest entries of one run (`out.Targets` in `runRefresh`). -/
def runRefreshTargets (filt : String) (orgs : List OrgInput) : List ImportTarget :=
  orgs.flatMap (fun o => buildOrgEntries o.org.ID o.integrations filt o.projects)

/-- A connector map with one GitHub integration, for concrete runs. -/
def demoIntegrations : String → Option String :=
  fun k => if k == "github" then some "int-1" else none

/-- Account A: two projects of the same repo (same canonical target). -/
def demoOrgA : OrgInput :=
  ⟨⟨"org-a", "A", "a"⟩, demoIntegrations,
    [⟨"1", "myorg/myrepo:package.json", "github", "main", "", "2024-01-01", ""⟩,
     ⟨"2", "myorg/myrepo:go.mod", "github", "main", "", "2024-01-02", ""⟩]⟩

/-- Account B: a project with the same composite name as account A's. -/
def demoOrgB : OrgInput :=
  ⟨⟨"org-b", "B", "b"⟩, demoIntegrations,
    [⟨"3", "myorg/myrepo:pom.xml", "github", "main", "", "2024-01-03", ""⟩]⟩

/-! ## Theorems -/

/-- C1: a pagination continuation is followed iff it is root-relative or an
absolute HTTPS URL on the original host or a dot-boundary subdomain of it;
any other continuation is not followed and the fetch loop ends without an
error, returning the records gathered so far. -/
theorem isAllowedNextURL_iff_spec :
    (∀ nextURL allowedHost : String,
      isAllowedNextURL nextURL allowedHost = true ↔
        allowedNextSpec nextURL allowedHost)
    ∧
    (∀ (α : Type) (server : String → PageResponse α)
        (baseURL apiHost url nextStr : String) (fuel : Nat) (acc : List α),
      (server url).status = 200 →
      (server url).next = some nextStr →
      isAllowedNextURL nextStr apiHost = false →
      fetchPagedGo server baseURL apiHost (fuel + 1) url acc =
        .ok (acc ++ (server url).data)) := by
  constructor
  · intro nextURL allowedHost
    unfold isAllowedNextURL allowedNextSpec
    by_cases hempty : nextURL = ""
    · subst hempty
      simp only [if_pos rfl]
      constructor
      · intro h; exact absurd h (by simp)
      · rintro (hs | ⟨u, hu, hsch, _⟩)
        · exact absurd hs (by decide)
        · have hp : parseURL "" = some ⟨"", ""⟩ := by decide
          rw [hp] at hu
          cases hu
          exact absurd hsch (by decide)
    · rw [if_neg hempty]
      cases hslash : startsWithSlash nextURL with
      | true => simp
      | false =>
        rw [if_neg (by simp)]
        cases hp : parseURL nextURL with
        | none =>
          constructor
          · intro h; cases h
          · rintro (hs | ⟨v, hv, _, _⟩)
            · cases hs
            · cases hv
        | some u =>
          dsimp only
          by_cases hsch : u.scheme = "https"
          · rw [if_neg (not_not_intro hsch)]
            constructor
            · intro h
              refine Or.inr ⟨u, rfl, hsch, ?_⟩
              have h2 : u.hostname = allowedHost ∨
                  strEndsWith u.hostname ("." ++ allowedHost) = true := by
                simpa using h
              exact h2
            · rintro (hs | ⟨v, hv, _, hh⟩)
              · cases hs
              · cases hv
                rcases hh with hh | hh
                · simp [hh]
                · simp [hh]
          · rw [if_pos hsch]
            constructor
            · intro h; cases h
            · rintro (hs | ⟨v, hv, hvsch, _⟩)
              · cases hs
              · cases hv; exact absurd hvsch hsch
  · intro α server baseURL apiHost url nextStr fuel acc h200 hnext hdis
    unfold fetchPagedGo
    by_cases hne : nextStr = "" <;>
      simp [h200, hnext, hdis, hne]

/-- Witness for C1: a sibling-looking host (`evilapi.example.com` against
`api.example.com`) is rejected and the fetch returns its partial result. -/
theorem isAllowedNextURL_iff_spec_witness :
    fetchPagedGo
      (fun _ => (⟨200, "", [], some "https://evilapi.example.com/path"⟩ :
        PageResponse Project))
      "https://api.example.com" "api.example.com" 1
      "https://api.example.com/first" [] = .ok [] := by
  have h := isAllowedNextURL_iff_spec.2 Project
    (fun _ => ⟨200, "", [], some "https://evilapi.example.com/path"⟩)
    "https://api.example.com" "api.example.com" "https://api.example.com/first"
    "https://evilapi.example.com/path" 0 [] rfl rfl (by decide)
  simpa using h

/-- The sort by `Created` permutes its input. -/
theorem sortByCreated_perm (l : List Project) : (sortByCreated l).Perm l :=
  List.perm_insertionSort createdLE l

/-- The sort by `Created` sorts ascending by creation timestamp. -/
theorem sortByCreated_sorted (l : List Project) :
    (sortByCreated l).Sorted createdLE :=
  List.sorted_insertionSort createdLE l

/-- With pairwise-distinct timestamps the sort is strictly ascending. -/
theorem sortByCreated_sorted_lt (l : List Project)
    (hd : l.Pairwise (fun a b => a.Created ≠ b.Created)) :
    (sortByCreated l).Sorted (fun a b => a.Created < b.Created) := by
  have hne : (sortByCreated l).Pairwise (fun a b => a.Created ≠ b.Created) := by
    refine (List.Perm.pairwise_iff ?_ (sortByCreated_perm l)).mpr hd
    exact fun h => Ne.symm h
  have := (sortByCreated_sorted l).and hne
  exact this.imp (fun h => lt_of_le_of_ne h.1 h.2)

/-- With pairwise-distinct timestamps the sorted list is determined by the
multiset of records, independent of fetch order. -/
theorem sortByCreated_eq_of_perm (l₁ l₂ : List Project) (h : l₁.Perm l₂)
    (hd : l₁.Pairwise (fun a b => a.Created ≠ b.Created)) :
    sortByCreated l₁ = sortByCreated l₂ := by
  haveI : IsAntisymm Project (fun a b => a.Created < b.Created) :=
    ⟨fun a b h1 h2 => absurd h2 (lt_asymm h1)⟩
  refine List.eq_of_perm_of_sorted ?_ (sortByCreated_sorted_lt l₁ hd) ?_
  · exact ((sortByCreated_perm l₁).trans h).trans (sortByCreated_perm l₂).symm
  · refine sortByCreated_sorted_lt l₂ ?_
    exact (List.Perm.pairwise_iff (fun hne => Ne.symm hne) h).mp hd

/-- C2: duplicate grouping partitions an org's projects by name alone, a
group is a duplicate group exactly when it has at least two records, each
group is sorted ascending by creation timestamp (uniquely so when the
timestamps are pairwise distinct, independent of fetch order), and the
record at index 0 is kept while the tail are removal candidates; for three
same-named records with timestamps T1 < T2 < T3 fetched in any order the
group is [T1, T2, T3] with T2 and T3 the candidates. -/
theorem runDedup_grouping_spec :
    (∀ (ps : List Project) (n : String) (p : Project),
      p ∈ groupOf ps n ↔ p ∈ ps ∧ p.Name = n)
    ∧
    (∀ (ps : List Project) (n : String),
      (∃ g ∈ duplicateGroupsOf ps, g.key = n) ↔ 2 ≤ (groupOf ps n).length)
    ∧
    (∀ (ps : List Project) (g : duplicateGroup), g ∈ duplicateGroupsOf ps →
      g.projects = sortByCreated (groupOf ps g.key) ∧
      2 ≤ (groupOf ps g.key).length ∧ g.projects.Sorted createdLE)
    ∧
    (∀ (ps qs : List Project) (n : String), ps.Perm qs →
      (groupOf ps n).Pairwise (fun a b => a.Created ≠ b.Created) →
      sortByCreated (groupOf ps n) = sortByCreated (groupOf qs n))
    ∧
    (∀ (n : String) (r1 r2 r3 : Project) (ps : List Project),
      r1.Name = n → r2.Name = n → r3.Name = n →
      r1.Created < r2.Created → r2.Created < r3.Created →
      ps.Perm [r1, r2, r3] →
      duplicateGroupsOf ps = [⟨n, [r1, r2, r3]⟩] ∧
      keepOf ⟨n, [r1, r2, r3]⟩ = some r1 ∧
      candidatesOf ⟨n, [r1, r2, r3]⟩ = [r2, r3]) := by
  refine ⟨?_, ?_, ?_, ?_, ?_⟩
  · intro ps n p
    simp [groupOf]
  · intro ps n
    constructor
    · rintro ⟨g, hg, rfl⟩
      rcases List.mem_filterMap.mp hg with ⟨m, _, hfm⟩
      by_cases h2 : 2 ≤ (groupOf ps m).length
      · rw [if_pos h2] at hfm
        cases hfm
        exact h2
      · rw [if_neg h2] at hfm
        cases hfm
    · intro h2
      have hpos : 0 < (groupOf ps n).length := by omega
      obtain ⟨p, hp⟩ := List.exists_mem_of_length_pos hpos
      have hmem : p ∈ ps ∧ p.Name = n := by
        simpa [groupOf] using hp
      refine ⟨⟨n, sortByCreated (groupOf ps n)⟩, ?_, rfl⟩
      refine List.mem_filterMap.mpr ⟨n, ?_, by rw [if_pos h2]⟩
      exact List.mem_dedup.mpr (List.mem_map.mpr ⟨p, hmem.1, hmem.2⟩)
  · intro ps g hg
    rcases List.mem_filterMap.mp hg with ⟨m, _, hfm⟩
    by_cases h2 : 2 ≤ (groupOf ps m).length
    · rw [if_pos h2] at hfm
      cases hfm
      exact ⟨rfl, h2, sortByCreated_sorted _⟩
    · rw [if_neg h2] at hfm
      cases hfm
  · intro ps qs n hperm hd
    exact sortByCreated_eq_of_perm _ _ (List.Perm.filter _ hperm) hd
  · intro n r1 r2 r3 ps h1 h2 h3 h12 h23 hperm
    have hmemps : ∀ p ∈ ps, p.Name = n := by
      intro p hp
      have hp3 : p ∈ [r1, r2, r3] := hperm.mem_iff.mp hp
      rcases by simpa using hp3 with h | h | h <;> subst h <;> assumption
    have hgroup : groupOf ps n = ps := by
      unfold groupOf
      refine List.filter_eq_self.mpr ?_
      intro p hp
      simp [hmemps p hp]
    have hlen : ps.length = 3 := by rw [hperm.length_eq]; rfl
    have hnames : ps.map (fun p => p.Name) = [n, n, n] := by
      have hall : ∀ x ∈ ps.map (fun p => p.Name), x = n := by
        intro x hx
        rcases List.mem_map.mp hx with ⟨p, hp, rfl⟩
        exact hmemps p hp
      have hrep := List.eq_replicate_of_mem hall
      rw [hrep, List.length_map, hlen]
      rfl
    have hdedup : (ps.map (fun p => p.Name)).dedup = [n] := by
      rw [hnames, List.dedup_cons_of_mem (by simp),
        List.dedup_cons_of_mem (by simp)]
      simp
    have hdps : ps.Pairwise (fun a b => a.Created ≠ b.Created) := by
      refine (List.Perm.pairwise_iff (fun hne => Ne.symm hne) hperm).mpr ?_
      refine List.Pairwise.cons ?_ (List.Pairwise.cons ?_
        (List.pairwise_singleton _ _))
      · intro b hb
        rcases List.mem_cons.mp hb with h | h
        · subst h; exact ne_of_lt h12
        · rw [List.mem_singleton] at h; subst h
          exact ne_of_lt (lt_trans h12 h23)
      · intro b hb
        rw [List.mem_singleton] at hb; subst hb
        exact ne_of_lt h23
    have hsorted : sortByCreated ps = [r1, r2, r3] := by
      haveI : IsAntisymm Project (fun a b => a.Created < b.Created) :=
        ⟨fun a b ha hb => absurd hb (lt_asymm ha)⟩
      refine List.eq_of_perm_of_sorted ((sortByCreated_perm ps).trans hperm)
        (sortByCreated_sorted_lt ps hdps) ?_
      show List.Pairwise (fun a b => a.Created < b.Created) [r1, r2, r3]
      refine List.Pairwise.cons ?_ (List.Pairwise.cons ?_
        (List.pairwise_singleton _ _))
      · intro b hb
        rcases List.mem_cons.mp hb with h | h
        · subst h; exact h12
        · rw [List.mem_singleton] at h; subst h; exact lt_trans h12 h23
      · intro b hb
        rw [List.mem_singleton] at hb; subst hb; exact h23
    refine ⟨?_, rfl, rfl⟩
    unfold duplicateGroupsOf
    rw [hdedup]
    simp only [List.filterMap_cons, List.filterMap_nil]
    rw [hgroup, hlen, if_pos (by norm_num), hsorted]

/-- Witness for C2: three same-named projects with ascending timestamps,
fetched out of order, group into the timestamp-sorted sequence with the
two newer records as removal candidates. -/
theorem runDedup_grouping_spec_witness :
    duplicateGroupsOf
        [⟨"a", "api/svc:go.mod", "github", "", "", "2024-01-01", ""⟩,
         ⟨"b", "api/svc:go.mod", "bitbucket-cloud", "", "", "2023-01-02", ""⟩,
         ⟨"c", "api/svc:go.mod", "github", "", "", "2023-05-01", ""⟩] =
      [⟨"api/svc:go.mod",
        [⟨"b", "api/svc:go.mod", "bitbucket-cloud", "", "", "2023-01-02", ""⟩,
         ⟨"c", "api/svc:go.mod", "github", "", "", "2023-05-01", ""⟩,
         ⟨"a", "api/svc:go.mod", "github", "", "", "2024-01-01", ""⟩]⟩] ∧
    keepOf ⟨"api/svc:go.mod",
        [⟨"b", "api/svc:go.mod", "bitbucket-cloud", "", "", "2023-01-02", ""⟩,
         ⟨"c", "api/svc:go.mod", "github", "", "", "2023-05-01", ""⟩,
         ⟨"a", "api/svc:go.mod", "github", "", "", "2024-01-01", ""⟩]⟩ =
      some ⟨"b", "api/svc:go.mod", "bitbucket-cloud", "", "", "2023-01-02", ""⟩ ∧
    candidatesOf ⟨"api/svc:go.mod",
        [⟨"b", "api/svc:go.mod", "bitbucket-cloud", "", "", "2023-01-02", ""⟩,
         ⟨"c", "api/svc:go.mod", "github", "", "", "2023-05-01", ""⟩,
         ⟨"a", "api/svc:go.mod", "github", "", "", "2024-01-01", ""⟩]⟩ =
      [⟨"c", "api/svc:go.mod", "github", "", "", "2023-05-01", ""⟩,
       ⟨"a", "api/svc:go.mod", "github", "", "", "2024-01-01", ""⟩] := by
  exact runDedup_grouping_spec.2.2.2.2 "api/svc:go.mod"
    ⟨"b", "api/svc:go.mod", "bitbucket-cloud", "", "", "2023-01-02", ""⟩
    ⟨"c", "api/svc:go.mod", "github", "", "", "2023-05-01", ""⟩
    ⟨"a", "api/svc:go.mod", "github", "", "", "2024-01-01", ""⟩
    [⟨"a", "api/svc:go.mod", "github", "", "", "2024-01-01", ""⟩,
     ⟨"b", "api/svc:go.mod", "bitbucket-cloud", "", "", "2023-01-02", ""⟩,
     ⟨"c", "api/svc:go.mod", "github", "", "", "2023-05-01", ""⟩]
    rfl rfl rfl (by rw [String.lt_iff_toList_lt]; decide)
    (by rw [String.lt_iff_toList_lt]; decide) (by decide)

/-- C3: in phase 2 a fetched target is a removal candidate iff its
display-name group has at least two targets and no re-fetched project
references its ID; a uniquely-named target is never a candidate, and a
target referenced by a surviving project is never a candidate. -/
theorem phase2Candidate_iff :
    ∀ (targets : List APITarget) (projects : List Project) (t : APITarget),
      t ∈ targets →
      (t ∈ phase2Candidates targets projects ↔
        2 ≤ (targetsWithName targets t.DisplayName).length ∧
          ¬ ∃ p ∈ projects, p.TargetID ≠ "" ∧ p.TargetID = t.ID) ∧
      ((targetsWithName targets t.DisplayName).length = 1 →
        t ∉ phase2Candidates targets projects) ∧
      (∀ p ∈ projects, p.TargetID = t.ID → p.TargetID ≠ "" →
        t ∉ phase2Candidates targets projects) := by
  intro targets projects t ht
  have hmain : t ∈ phase2Candidates targets projects ↔
      2 ≤ (targetsWithName targets t.DisplayName).length ∧
        ¬ ∃ p ∈ projects, p.TargetID ≠ "" ∧ p.TargetID = t.ID := by
    unfold phase2Candidates isPhase2Candidate activeTargetIDs
    rw [List.mem_filter]
    constructor
    · rintro ⟨_, hb⟩
      rw [Bool.and_eq_true] at hb
      obtain ⟨h2, hno⟩ := hb
      refine ⟨of_decide_eq_true h2, ?_⟩
      rintro ⟨p, hp, hne, hid⟩
      have hmem : t.ID ∈
          (projects.filter (fun p => p.TargetID != "")).map
            (fun p => p.TargetID) :=
        List.mem_map.mpr ⟨p, List.mem_filter.mpr ⟨hp, by simp [hne]⟩, hid⟩
      rw [Bool.not_eq_true'] at hno
      have hcon := List.elem_iff.mpr hmem
      have hno2 : List.elem t.ID
          ((projects.filter (fun p => p.TargetID != "")).map
            (fun p => p.TargetID)) = false := hno
      rw [hno2] at hcon
      cases hcon
    · rintro ⟨h2, hno⟩
      refine ⟨ht, ?_⟩
      rw [Bool.and_eq_true]
      refine ⟨decide_eq_true h2, ?_⟩
      cases hcase : ((projects.filter (fun p => p.TargetID != "")).map
          (fun p => p.TargetID)).contains t.ID with
      | false => simp
      | true =>
        exfalso
        have hmem := List.elem_iff.mp hcase
        rcases List.mem_map.mp hmem with ⟨p, hpf, hid⟩
        rcases List.mem_filter.mp hpf with ⟨hp, hne⟩
        exact hno ⟨p, hp, by simpa using hne, hid⟩
  refine ⟨hmain, ?_, ?_⟩
  · intro hlen hc
    have := (hmain.mp hc).1
    omega
  · intro p hp hid hne hc
    exact (hmain.mp hc).2 ⟨p, hp, hne, hid⟩

/-- Witness for C3: of two same-named targets, the one no surviving
project references is a phase-2 candidate. -/
theorem phase2Candidate_iff_witness :
    (⟨"t2", "repo", "i2", "github", "c2"⟩ : APITarget) ∈
      phase2Candidates
        [⟨"t1", "repo", "i1", "github", "c1"⟩,
         ⟨"t2", "repo", "i2", "github", "c2"⟩]
        [⟨"p1", "o/repo:pom.xml", "github", "", "", "2024", "t1"⟩] := by
  refine ((phase2Candidate_iff
    [⟨"t1", "repo", "i1", "github", "c1"⟩,
     ⟨"t2", "repo", "i2", "github", "c2"⟩]
    [⟨"p1", "o/repo:pom.xml", "github", "", "", "2024", "t1"⟩]
    ⟨"t2", "repo", "i2", "github", "c2"⟩ (by decide)).1).mpr ⟨?_, ?_⟩
  · decide
  · decide

/-- C10: phase 2 visits only orgs whose phase-1 scan found at least one
duplicate group; an org with no duplicate groups is never visited, so no
target of that org is fetched, reported, or deleted. -/
theorem dedupPhase2Frame :
    ∀ (fetchedTargets : String → List APITarget)
      (refetchedProjects : String → List Project)
      (orgResults : List (String × List Project)) (oid : String),
      (∀ ps, (oid, ps) ∈ orgResults → duplicateGroupsOf ps = []) →
      oid ∉ orgsAffected orgResults ∧
      ∀ tid, (oid, tid) ∉
        phase2Deletions fetchedTargets refetchedProjects orgResults := by
  intro ft fp ors oid h
  have h1 : oid ∉ orgsAffected ors := by
    intro hmem
    unfold orgsAffected at hmem
    rcases List.mem_map.mp hmem with ⟨r, hr, hfst⟩
    rcases List.mem_filter.mp hr with ⟨hrin, hcond⟩
    obtain ⟨a, b⟩ := r
    simp only at hfst
    subst hfst
    have hnil : duplicateGroupsOf b = [] := h b hrin
    simp [hnil] at hcond
  refine ⟨h1, ?_⟩
  intro tid hmem
  unfold phase2Deletions at hmem
  rcases List.mem_flatMap.mp hmem with ⟨o, ho, hpair⟩
  rcases List.mem_map.mp hpair with ⟨t, _, heq⟩
  cases heq
  exact h1 ho

/-- Witness for C10: an org whose only project has a unique name is not
visited by phase 2 and none of its targets are deleted. -/
theorem dedupPhase2Frame_witness :
    "org1" ∉ orgsAffected
        [("org1", [⟨"p1", "o/repo:pom.xml", "github", "", "", "2024", "t1"⟩])] ∧
    ("org1", "t9") ∉ phase2Deletions (fun _ => []) (fun _ => [])
        [("org1", [⟨"p1", "o/repo:pom.xml", "github", "", "", "2024", "t1"⟩])] := by
  have h := dedupPhase2Frame (fun _ => []) (fun _ => [])
    [("org1", [⟨"p1", "o/repo:pom.xml", "github", "", "", "2024", "t1"⟩])] "org1"
    (by
      intro ps hps
      simp only [List.mem_singleton, Prod.mk.injEq] at hps
      rw [hps.2]
      decide)
  exact ⟨h.1, h.2 "t9"⟩

/-- C9: on the first page of a paged fetch, a 404 yields an empty record
list with no error, and any other non-200 status fails with the response
status code and body — for both the project and the target fetch. -/
theorem fetchFirstPage_spec :
    ∀ (ps : String → PageResponse Project) (ts : String → PageResponse APITarget)
      (baseURL apiHost url : String) (fuel : Nat),
      ((ps url).status = 404 →
        FetchProjects ps baseURL apiHost url (fuel + 1) = .ok []) ∧
      ((ps url).status ≠ 200 → (ps url).status ≠ 404 →
        FetchProjects ps baseURL apiHost url (fuel + 1) =
          .fail (ps url).status (ps url).body) ∧
      ((ts url).status = 404 →
        FetchTargets ts baseURL apiHost url (fuel + 1) = .ok []) ∧
      ((ts url).status ≠ 200 → (ts url).status ≠ 404 →
        FetchTargets ts baseURL apiHost url (fuel + 1) =
          .fail (ts url).status (ts url).body) := by
  intro ps ts baseURL apiHost url fuel
  refine ⟨?_, ?_, ?_, ?_⟩
  · intro h404
    unfold FetchProjects fetchPagedGo
    simp [h404]
  · intro h200 h404
    unfold FetchProjects fetchPagedGo
    simp [h200, h404]
  · intro h404
    unfold FetchTargets fetchPagedGo
    simp [h404]
  · intro h200 h404
    unfold FetchTargets fetchPagedGo
    simp [h200, h404]

/-- Witness for C9: a 404 first page is an empty success and a 500 first
page is a failure carrying status and body. -/
theorem fetchFirstPage_spec_witness :
    FetchProjects (fun _ => ⟨404, "not found", [], none⟩) "b" "h" "u" 1 =
      .ok [] ∧
    FetchTargets (fun _ => ⟨500, "boom", [], none⟩) "b" "h" "u" 1 =
      .fail 500 "boom" := by
  have h := fetchFirstPage_spec (fun _ => ⟨404, "not found", [], none⟩)
    (fun _ => ⟨500, "boom", [], none⟩) "b" "h" "u" 0
  exact ⟨h.1 rfl, h.2.2.2 (by decide) (by decide)⟩

/-- A successful conversion's dedup key is the entry's own identity string,
and the entry carries the org it was built for. -/
theorem convertProject_tid (orgID : String) (ints : String → Option String)
    (filt : String) (p : Project) (tid : String) (e : ImportTarget)
    (h : convertProject orgID ints filt p = some (tid, e)) :
    tid = entryTID e ∧ e.OrgID = orgID := by
  unfold convertProject at h
  repeat' split at h
  any_goals exact Option.noConfusion h
  injection h with hpair
  rw [Prod.mk.injEq] at hpair
  obtain ⟨ha, hb⟩ := hpair
  subst ha
  subst hb
  exact ⟨rfl, rfl⟩

/-- The `seen`-map loop is exactly first-seen-wins keying on `TargetID`. -/
theorem buildOrgEntriesAux_eq (orgID : String) (ints : String → Option String)
    (filt : String) : ∀ (ps : List Project) (seen : List String),
    buildOrgEntriesAux orgID ints filt ps seen =
      firstSeenByKey (ps.filterMap (convertProject orgID ints filt)) seen := by
  intro ps
  induction ps with
  | nil => intro seen; rfl
  | cons p ps ih =>
    intro seen
    unfold buildOrgEntriesAux
    rw [List.filterMap_cons]
    cases hc : convertProject orgID ints filt p with
    | none => exact ih seen
    | some ke =>
      obtain ⟨k, e⟩ := ke
      show (if seen.contains k then buildOrgEntriesAux orgID ints filt ps seen
        else e :: buildOrgEntriesAux orgID ints filt ps (k :: seen)) =
        firstSeenByKey ((k, e) :: ps.filterMap (convertProject orgID ints filt))
          seen
      unfold firstSeenByKey
      by_cases hk : seen.contains k
      · rw [if_pos hk, if_pos hk, ih]
      · rw [if_neg hk, if_neg hk, ih]

/-- Invariant of the `seen`-map loop: output identity strings are distinct,
none was seen before, and every entry carries the loop's org. -/
theorem buildOrgEntriesAux_inv (orgID : String) (ints : String → Option String)
    (filt : String) : ∀ (ps : List Project) (seen : List String),
    ((buildOrgEntriesAux orgID ints filt ps seen).map entryTID).Nodup ∧
    ∀ e ∈ buildOrgEntriesAux orgID ints filt ps seen,
      entryTID e ∉ seen ∧ e.OrgID = orgID := by
  intro ps
  induction ps with
  | nil =>
    intro seen
    exact ⟨List.nodup_nil, by intro e he; cases he⟩
  | cons p ps ih =>
    intro seen
    unfold buildOrgEntriesAux
    cases hc : convertProject orgID ints filt p with
    | none => exact ih seen
    | some ke =>
      obtain ⟨k, e0⟩ := ke
      obtain ⟨hk, horg⟩ := convertProject_tid orgID ints filt p k e0 hc
      dsimp only
      by_cases hseen : seen.contains k = true
      · rw [if_pos hseen]
        exact ih seen
      · rw [if_neg hseen]
        obtain ⟨ihn, ihm⟩ := ih (k :: seen)
        constructor
        · rw [List.map_cons, List.nodup_cons]
          refine ⟨?_, ihn⟩
          intro hmem
          rcases List.mem_map.mp hmem with ⟨e, he, heq⟩
          apply (ihm e he).1
          rw [heq, ← hk]
          exact List.mem_cons_self k seen
        · intro e he
          rcases List.mem_cons.mp he with rfl | he2
          · refine ⟨?_, horg⟩
            rw [← hk]
            intro hmem
            exact hseen (List.elem_iff.mpr hmem)
          · have hrec := ihm e he2
            exact ⟨fun hmem => hrec.1 (List.mem_cons_of_mem k hmem), hrec.2⟩

/-- A flattened list is pairwise related when each chunk is and all pairs
of chunks are related elementwise. -/
theorem pairwise_flatMap_of {α β : Type} (R : β → β → Prop) (f : α → List β) :
    ∀ (l : List α), (∀ a ∈ l, (f a).Pairwise R) →
      l.Pairwise (fun a b => ∀ x ∈ f a, ∀ y ∈ f b, R x y) →
      (l.flatMap f).Pairwise R := by
  intro l
  induction l with
  | nil => intro _ _; simp
  | cons a l ih =>
    intro hall hpw
    rw [List.flatMap_cons, List.pairwise_append]
    rcases List.pairwise_cons.mp hpw with ⟨hhead, htail⟩
    refine ⟨hall a (List.mem_cons_self a l),
      ih (fun b hb => hall b (List.mem_cons_of_mem a hb)) htail, ?_⟩
    intro x hx y hy
    rcases List.mem_flatMap.mp hy with ⟨b, hb, hyb⟩
    exact hhead b hb x hx y hyb

/-- C4: the manifest loop keeps the first entry per `TargetID` and drops
later duplicates; with distinct org IDs, the (account, connector, target)
triples of a run's output are pairwise distinct; and in the concrete
two-account scenario, the same-target duplicate inside account A collapses
while account B's same-named record produces its own entry. -/
theorem runRefresh_manifest_unique :
    (∀ (orgID : String) (ints : String → Option String) (filt : String)
        (ps : List Project),
      buildOrgEntries orgID ints filt ps =
        firstSeenByKey (ps.filterMap (convertProject orgID ints filt)) [])
    ∧
    (∀ (filt : String) (orgs : List OrgInput),
      (orgs.map (fun o => o.org.ID)).Nodup →
      (runRefreshTargets filt orgs).Pairwise (fun e₁ e₂ =>
        ¬(e₁.OrgID = e₂.OrgID ∧ e₁.IntegrationID = e₂.IntegrationID ∧
          e₁.target = e₂.target)))
    ∧
    runRefreshTargets "" [demoOrgA, demoOrgB] =
      [⟨.path "myorg" "myrepo" "main", "org-a", "int-1"⟩,
       ⟨.path "myorg" "myrepo" "main", "org-b", "int-1"⟩] := by
  refine ⟨?_, ?_, ?_⟩
  · intro orgID ints filt ps
    exact buildOrgEntriesAux_eq orgID ints filt ps []
  · intro filt orgs hnodup
    unfold runRefreshTargets
    refine pairwise_flatMap_of _ _ orgs ?_ ?_
    · intro o _
      have hnd := (buildOrgEntriesAux_inv o.org.ID o.integrations filt
        o.projects []).1
      have hnd2 : List.Pairwise (fun a b => entryTID a ≠ entryTID b)
          (buildOrgEntriesAux o.org.ID o.integrations filt o.projects []) :=
        List.pairwise_map.mp hnd
      refine hnd2.imp ?_
      intro a b hne htriple
      apply hne
      unfold entryTID
      rw [htriple.1, htriple.2.1, htriple.2.2]
    · have hpw : orgs.Pairwise (fun o1 o2 => o1.org.ID ≠ o2.org.ID) :=
        List.pairwise_map.mp hnodup
      refine hpw.imp ?_
      intro o1 o2 hne x hx y hy htriple
      have hx1 : x.OrgID = o1.org.ID :=
        ((buildOrgEntriesAux_inv o1.org.ID o1.integrations filt
          o1.projects []).2 x hx).2
      have hy1 : y.OrgID = o2.org.ID :=
        ((buildOrgEntriesAux_inv o2.org.ID o2.integrations filt
          o2.projects []).2 y hy).2
      exact hne (by rw [← hx1, ← hy1, htriple.1])
  · rfl

/-- Witness for C4: the concrete two-account run's output has pairwise
distinct (account, connector, target) triples. -/
theorem runRefresh_manifest_unique_witness :
    (runRefreshTargets "" [demoOrgA, demoOrgB]).Pairwise (fun e₁ e₂ =>
      ¬(e₁.OrgID = e₂.OrgID ∧ e₁.IntegrationID = e₂.IntegrationID ∧
        e₁.target = e₂.target)) :=
  runRefresh_manifest_unique.2.1 "" [demoOrgA, demoOrgB] (by decide)

/-- Strings with equal character data are equal. -/
theorem str_ext (s t : String) (h : s.data = t.data) : s = t := by
  cases s
  cases t
  exact congrArg String.mk h

/-- C5: `TargetID` is a pure deterministic join of account, connector and
the target's fields with `":"` in fixed per-shape order, and differing
account or differing connector for a fixed target changes the result. -/
theorem TargetID_spec :
    (∀ (a1 a2 i1 i2 : String) (t1 t2 : Target),
      a1 = a2 → i1 = i2 → t1 = t2 → TargetID a1 i1 t1 = TargetID a2 i2 t2)
    ∧
    TargetID "org-1" "int-1" (.path "owner" "repo" "main") =
      "org-1:int-1:repo:owner:main"
    ∧
    TargetID "org-2" "int-2" (.keySlug "PROJ" "slug") = "org-2:int-2:PROJ:slug"
    ∧
    (∀ (a1 a2 i : String) (t : Target), a1 ≠ a2 →
      TargetID a1 i t ≠ TargetID a2 i t)
    ∧
    (∀ (a i1 i2 : String) (t : Target), i1 ≠ i2 →
      TargetID a i1 t ≠ TargetID a i2 t) := by
  refine ⟨?_, by decide, by decide, ?_, ?_⟩
  · intro a1 a2 i1 i2 t1 t2 h1 h2 h3
    rw [h1, h2, h3]
  · intro a1 a2 i t hne heq
    apply hne
    apply str_ext
    have hd := congrArg String.data heq
    cases t <;>
      simp only [TargetID, String.data_append, List.append_assoc] at hd <;>
      exact List.append_cancel_right hd
  · intro a i1 i2 t hne heq
    apply hne
    apply str_ext
    have hd := congrArg String.data heq
    cases t <;>
      simp only [TargetID, String.data_append, List.append_assoc] at hd <;>
      · have h1 := List.append_cancel_left hd
        have h2 := List.append_cancel_left h1
        exact List.append_cancel_right h2

/-- Witness for C5: a fixed target's ID differs across accounts and across
connectors. -/
theorem TargetID_spec_witness :
    TargetID "org-a" "int-1" (.path "owner" "repo" "main") ≠
      TargetID "org-b" "int-1" (.path "owner" "repo" "main") ∧
    TargetID "org-1" "int-x" (.keySlug "PROJ" "slug") ≠
      TargetID "org-1" "int-y" (.keySlug "PROJ" "slug") :=
  ⟨TargetID_spec.2.2.2.1 "org-a" "org-b" "int-1"
      (.path "owner" "repo" "main") (by decide),
   TargetID_spec.2.2.2.2 "org-1" "int-x" "int-y"
      (.keySlug "PROJ" "slug") (by decide)⟩

/-- Splitting succeeds exactly when the separator occurs in the list. -/
theorem breakAt_isSome (c : Char) :
    ∀ l : List Char, c ∈ l → (breakAt c l).isSome = true := by
  intro l
  induction l with
  | nil => intro h; cases h
  | cons x xs ih =>
    intro h
    unfold breakAt
    by_cases hx : x = c
    · rw [if_pos hx]; rfl
    · rw [if_neg hx]
      rcases List.mem_cons.mp h with h1 | h1
      · exact absurd h1.symm hx
      · have hs := ih h1
        cases hb : breakAt c xs with
        | none => rw [hb] at hs; cases hs
        | some p => rfl

/-- Splitting fails when the separator does not occur. -/
theorem breakAt_eq_none (c : Char) :
    ∀ l : List Char, c ∉ l → breakAt c l = none := by
  intro l
  induction l with
  | nil => intro _; rfl
  | cons x xs ih =>
    intro h
    have hxne : ¬ x = c := fun hxc => h (List.mem_cons.mpr (Or.inl hxc.symm))
    have htail : c ∉ xs := fun hm => h (List.mem_cons_of_mem x hm)
    unfold breakAt
    rw [if_neg hxne, ih htail]

/-- Splitting cuts at the first separator occurrence. -/
theorem breakAt_append (c : Char) :
    ∀ (xs ys : List Char), c ∉ xs →
      breakAt c (xs ++ c :: ys) = some (xs, ys) := by
  intro xs
  induction xs with
  | nil =>
    intro ys _
    simp [breakAt]
  | cons x xs ih =>
    intro ys h
    have hxne : ¬ x = c := fun hxc => h (List.mem_cons.mpr (Or.inl hxc.symm))
    have htail : c ∉ xs := fun hm => h (List.mem_cons_of_mem x hm)
    rw [List.cons_append]
    unfold breakAt
    rw [if_neg hxne, ih ys htail]

/-- Taking-while keeps a list all of whose elements satisfy the predicate. -/
theorem takeWhileAll (p : Char → Bool) :
    ∀ xs : List Char, (∀ a ∈ xs, p a = true) → xs.takeWhile p = xs := by
  intro xs
  induction xs with
  | nil => intro _; rfl
  | cons x xs ih =>
    intro h
    rw [List.takeWhile_cons, if_pos (h x (List.mem_cons_self x xs)),
      ih (fun a ha => h a (List.mem_cons_of_mem x ha))]

/-- Taking-while stops exactly at the first failing element. -/
theorem takeWhileStop (p : Char → Bool) :
    ∀ (xs ys : List Char) (y : Char), (∀ a ∈ xs, p a = true) → p y = false →
      (xs ++ y :: ys).takeWhile p = xs := by
  intro xs
  induction xs with
  | nil =>
    intro ys y _ hy
    rw [List.nil_append, List.takeWhile_cons, if_neg (by simp [hy])]
  | cons x xs ih =>
    intro ys y h hy
    rw [List.cons_append, List.takeWhile_cons,
      if_pos (h x (List.mem_cons_self x xs)),
      ih ys y (fun a ha => h a (List.mem_cons_of_mem x ha)) hy]

/-- C6: `normalize` succeeds for every supported origin applied to a
well-formed composite name (one containing a `/`), and fails for the
unsupported `gitlab` origin and for every origin outside the allowlist
(including the empty tag), for all names and branch hints. -/
theorem ProjectToTarget_support :
    (∀ origin name branch : String, IsSCMOrigin origin = true →
      name.data.contains '/' = true →
      (ProjectToTarget name origin branch).isSome = true)
    ∧ (∀ name branch : String, ProjectToTarget name "gitlab" branch = none)
    ∧ (∀ origin name branch : String, IsSCMOrigin origin = false →
      ProjectToTarget name origin branch = none)
    ∧ IsSCMOrigin "gitlab" = false ∧ IsSCMOrigin "" = false := by
  refine ⟨?_, ?_, ?_, by decide, by decide⟩
  · intro origin name branch hsup hslash
    unfold ProjectToTarget
    have hsome : (breakAt '/' name.data).isSome = true :=
      breakAt_isSome '/' name.data (by simpa using hslash)
    obtain ⟨⟨o, r⟩, hbr⟩ := Option.isSome_iff_exists.mp hsome
    rw [hbr]
    dsimp only
    by_cases hps : pathStyleOrigins.contains origin = true
    · rw [if_pos hps]; rfl
    · have hbb : origin = "bitbucket-server" := by
        have hmem : origin ∈ supportedSCMOrigins := List.elem_iff.mp hsup
        simp only [supportedSCMOrigins, List.mem_cons, List.not_mem_nil,
          or_false] at hmem
        rcases hmem with h | h | h | h | h | h | h | h <;> subst h <;>
          first
            | rfl
            | exact absurd (by decide) hps
      rw [if_neg hps, if_pos (by rw [hbb]; decide)]
      rfl
  · intro name branch
    unfold ProjectToTarget
    cases hbr : breakAt '/' name.data with
    | none => rfl
    | some p =>
      obtain ⟨o, r⟩ := p
      dsimp only
      rw [if_neg (by decide)]
      rw [if_neg (by decide)]
  · intro origin name branch hns
    unfold ProjectToTarget
    cases hbr : breakAt '/' name.data with
    | none => rfl
    | some p =>
      obtain ⟨o, r⟩ := p
      dsimp only
      have hps : ¬ pathStyleOrigins.contains origin = true := by
        intro hc
        have hmem : origin ∈ pathStyleOrigins := List.elem_iff.mp hc
        have hsup : origin ∈ supportedSCMOrigins := by
          simp only [pathStyleOrigins, List.mem_cons, List.not_mem_nil,
            or_false] at hmem
          rcases hmem with h | h | h | h | h | h | h <;> subst h <;> decide
        rw [show IsSCMOrigin origin = true from List.elem_iff.mpr hsup] at hns
        cases hns
      have hbb : ¬ (origin == "bitbucket-server") = true := by
        intro hc
        have : origin = "bitbucket-server" := by simpa using hc
        subst this
        cases hns
      rw [if_neg hps, if_neg hbb]

/-- Witness for C6: a supported origin with a well-formed name succeeds
and an unknown origin fails. -/
theorem ProjectToTarget_support_witness :
    (ProjectToTarget "myorg/myrepo:package.json" "github" "main").isSome =
      true ∧
    ProjectToTarget "myorg/myrepo:package.json" "docker-hub" "main" = none :=
  ⟨ProjectToTarget_support.1 "github" "myorg/myrepo:package.json" "main"
      (by decide) (by decide),
   ProjectToTarget_support.2.2.1 "docker-hub" "myorg/myrepo:package.json"
      "main" (by decide)⟩

/-- A character list with `contains c = false` does not contain `c`. -/
theorem not_mem_of_contains_eq_false {c : Char} {l : List Char}
    (h : l.contains c = false) : c ∉ l := by
  intro hm
  have hc : l.contains c = true := List.elem_iff.mpr hm
  rw [h] at hc
  cases hc

/-- C7: for path-style origins the raw name splits at the first `/` into
owner, the remainder is cut at the `:` terminator into the repo name, a
parenthetical decoration after the repo is stripped, the branch is the
hint verbatim (the empty hint leaves the zero value), and a name without
`/` is a parse failure. -/
theorem ProjectToTarget_pathStyle :
    (∀ origin hint name : String, name.data.contains '/' = false →
      ProjectToTarget name origin hint = none)
    ∧
    (∀ origin hint owner repo rest : String,
      pathStyleOrigins.contains origin = true →
      owner.data.contains '/' = false →
      repo.data.contains ':' = false →
      repo.data.contains '(' = false →
      ProjectToTarget (owner ++ "/" ++ repo ++ ":" ++ rest) origin hint =
        some (.path owner repo hint))
    ∧
    (∀ origin hint owner repo deco rest : String,
      pathStyleOrigins.contains origin = true →
      owner.data.contains '/' = false →
      repo.data.contains ':' = false →
      repo.data.contains '(' = false →
      deco.data.contains ':' = false →
      ProjectToTarget (owner ++ "/" ++ repo ++ "(" ++ deco ++ "):" ++ rest)
        origin hint = some (.path owner repo hint))
    ∧
    ProjectToTarget "myorg/myrepo:package.json" "github" "main" =
      some (.path "myorg" "myrepo" "main")
    ∧ ProjectToTarget "noslash" "github" "" = none := by
  refine ⟨?_, ?_, ?_, by decide, by decide⟩
  · intro origin hint name hnos
    unfold ProjectToTarget
    rw [breakAt_eq_none '/' name.data (not_mem_of_contains_eq_false hnos)]
  · intro origin hint owner repo rest hps hown hrc hrp
    unfold ProjectToTarget
    have hdata : (owner ++ "/" ++ repo ++ ":" ++ rest).data =
        owner.data ++ '/' :: (repo.data ++ ':' :: rest.data) := by
      simp [String.data_append, show ("/" : String).data = ['/'] from rfl,
        show (":" : String).data = [':'] from rfl, List.append_assoc]
    rw [hdata,
      breakAt_append '/' owner.data _ (not_mem_of_contains_eq_false hown)]
    dsimp only
    rw [if_pos hps]
    have h1 : (repo.data ++ ':' :: rest.data).takeWhile
        (fun x => decide (x ≠ ':')) = repo.data := by
      refine takeWhileStop _ repo.data rest.data ':' ?_ (by decide)
      intro a ha
      have hne : a ≠ ':' :=
        fun heq => (not_mem_of_contains_eq_false hrc) (heq ▸ ha)
      simp [hne]
    have h2 : repo.data.takeWhile (fun x => decide (x ≠ '(')) = repo.data := by
      refine takeWhileAll _ repo.data ?_
      intro a ha
      have hne : a ≠ '(' :=
        fun heq => (not_mem_of_contains_eq_false hrp) (heq ▸ ha)
      simp [hne]
    rw [h1, h2]
  · intro origin hint owner repo deco rest hps hown hrc hrp hdc
    unfold ProjectToTarget
    have hdata : (owner ++ "/" ++ repo ++ "(" ++ deco ++ "):" ++ rest).data =
        owner.data ++ '/' ::
          (repo.data ++ '(' :: (deco.data ++ ')' :: ':' :: rest.data)) := by
      simp [String.data_append, show ("/" : String).data = ['/'] from rfl,
        show ("(" : String).data = ['('] from rfl,
        show ("):" : String).data = [')', ':'] from rfl, List.append_assoc]
    rw [hdata,
      breakAt_append '/' owner.data _ (not_mem_of_contains_eq_false hown)]
    dsimp only
    rw [if_pos hps]
    have hassoc : repo.data ++ '(' :: (deco.data ++ ')' :: ':' :: rest.data) =
        (repo.data ++ '(' :: (deco.data ++ [')'])) ++ ':' :: rest.data := by
      simp [List.append_assoc]
    have h1 : (repo.data ++ '(' :: (deco.data ++ ')' :: ':' :: rest.data)).takeWhile
        (fun x => decide (x ≠ ':')) = repo.data ++ '(' :: (deco.data ++ [')']) := by
      rw [hassoc]
      refine takeWhileStop _ _ rest.data ':' ?_ (by decide)
      intro a ha
      simp only [List.mem_append, List.mem_cons, List.not_mem_nil,
        or_false] at ha
      have hne : a ≠ ':' := by
        rcases ha with h | h | h | h
        · exact fun heq => (not_mem_of_contains_eq_false hrc) (heq ▸ h)
        · subst h; decide
        · exact fun heq => (not_mem_of_contains_eq_false hdc) (heq ▸ h)
        · subst h; decide
      simp [hne]
    have h2 : (repo.data ++ '(' :: (deco.data ++ [')'])).takeWhile
        (fun x => decide (x ≠ '(')) = repo.data := by
      refine takeWhileStop _ repo.data (deco.data ++ [')']) '(' ?_ (by decide)
      intro a ha
      have hne : a ≠ '(' :=
        fun heq => (not_mem_of_contains_eq_false hrp) (heq ▸ ha)
      simp [hne]
    rw [h1, h2]

/-- Witness for C7: the composite GitHub name splits into owner, repo and
the branch hint. -/
theorem ProjectToTarget_pathStyle_witness :
    ProjectToTarget ("myorg" ++ "/" ++ "myrepo" ++ ":" ++ "package.json")
      "github" "main" = some (.path "myorg" "myrepo" "main") :=
  ProjectToTarget_pathStyle.2.1 "github" "main" "myorg" "myrepo"
    "package.json" (by decide) (by decide) (by decide) (by decide)

/-- C8: for `bitbucket-server` the raw name splits identically on the
first `/` and the `:` terminator into `{projectKey, repoSlug}`, the branch
hint is ignored for every value, and the produced target always has the
key/slug shape, never owner/name/branch fields. -/
theorem ProjectToTarget_bitbucketServer :
    (∀ (key slug rest hint : String),
      key.data.contains '/' = false → slug.data.contains ':' = false →
      ProjectToTarget (key ++ "/" ++ slug ++ ":" ++ rest) "bitbucket-server"
        hint = some (.keySlug key slug))
    ∧
    (∀ (name h1 h2 : String),
      ProjectToTarget name "bitbucket-server" h1 =
        ProjectToTarget name "bitbucket-server" h2)
    ∧
    (∀ (name hint : String) (t : Target),
      ProjectToTarget name "bitbucket-server" hint = some t →
      ∃ k s, t = .keySlug k s)
    ∧
    ProjectToTarget "PROJ/my-repo:pom.xml" "bitbucket-server" "main" =
      some (.keySlug "PROJ" "my-repo") := by
  refine ⟨?_, ?_, ?_, by decide⟩
  · intro key slug rest hint hk hs
    unfold ProjectToTarget
    have hdata : (key ++ "/" ++ slug ++ ":" ++ rest).data =
        key.data ++ '/' :: (slug.data ++ ':' :: rest.data) := by
      simp [String.data_append, show ("/" : String).data = ['/'] from rfl,
        show (":" : String).data = [':'] from rfl, List.append_assoc]
    rw [hdata,
      breakAt_append '/' key.data _ (not_mem_of_contains_eq_false hk)]
    dsimp only
    rw [if_neg (by decide), if_pos (by decide)]
    have h1 : (slug.data ++ ':' :: rest.data).takeWhile
        (fun x => decide (x ≠ ':')) = slug.data := by
      refine takeWhileStop _ slug.data rest.data ':' ?_ (by decide)
      intro a ha
      have hne : a ≠ ':' :=
        fun heq => (not_mem_of_contains_eq_false hs) (heq ▸ ha)
      simp [hne]
    rw [h1]
  · intro name h1 h2
    unfold ProjectToTarget
    cases hbr : breakAt '/' name.data with
    | none => rfl
    | some p =>
      obtain ⟨o, r⟩ := p
      dsimp only
      rw [if_neg (show ¬ pathStyleOrigins.contains "bitbucket-server" = true
        by decide)]
      rw [if_neg (show ¬ pathStyleOrigins.contains "bitbucket-server" = true
        by decide)]
  · intro name hint t h
    unfold ProjectToTarget at h
    cases hbr : breakAt '/' name.data with
    | none => rw [hbr] at h; cases h
    | some p =>
      obtain ⟨o, r⟩ := p
      rw [hbr] at h
      dsimp only at h
      rw [if_neg (by decide), if_pos (by decide)] at h
      obtain rfl := Option.some.inj h.symm
      exact ⟨_, _, rfl⟩

/-- Witness for C8: the on-premises composite name yields the key/slug
target regardless of the branch hint. -/
theorem ProjectToTarget_bitbucketServer_witness :
    ProjectToTarget ("PROJ" ++ "/" ++ "my-repo" ++ ":" ++ "pom.xml")
      "bitbucket-server" "main" = some (.keySlug "PROJ" "my-repo") :=
  ProjectToTarget_bitbucketServer.1 "PROJ" "my-repo" "pom.xml" "main"
    (by decide) (by decide)

/-! ## Conformance of the embedding with the repository's Go tests -/

example : isAllowedNextURL "/rest/orgs/abc/projects?page=2" "api.snyk.io" = true := by decide

example : isAllowedNextURL "/" "api.snyk.io" = true := by decide

example : isAllowedNextURL "https://api.snyk.io/rest/orgs/abc/projects" "api.snyk.io" = true := by decide

example : isAllowedNextURL "https://app.api.snyk.io/something" "api.snyk.io" = true := by decide

example : isAllowedNextURL "https://api.eu.snyk.io/rest/orgs/abc/projects" "api.eu.snyk.io" = true := by decide

example : isAllowedNextURL "https://evil.com/rest/orgs/abc/projects" "api.snyk.io" = false := by decide

example : isAllowedNextURL "http://api.snyk.io/rest/orgs/abc/projects" "api.snyk.io" = false := by decide

example : isAllowedNextURL "" "api.snyk.io" = false := by decide

example : isAllowedNextURL "https://notapi.snyk.io/path" "api.snyk.io" = false := by decide

example : isAllowedNextURL "https://evilapi.snyk.io/path" "api.snyk.io" = false := by decide

example : ProjectToTarget "myorg/myrepo:package.json" "github" "main" = some (.path "myorg" "myrepo" "main") := by decide

example : ProjectToTarget "myorg/myrepo:src/go.mod" "github-cloud-app" "" = some (.path "myorg" "myrepo" "") := by decide

example : ProjectToTarget "owner/repo(branch):Dockerfile" "github" "" = some (.path "owner" "repo" "") := by decide

example : ProjectToTarget "noslash" "github" "" = none := by decide

example : ProjectToTarget "PROJ/my-repo:pom.xml" "bitbucket-server" "" = some (.keySlug "PROJ" "my-repo") := by decide

example : ProjectToTarget "KEY/slug:path" "bitbucket-server" "main" = some (.keySlug "KEY" "slug") := by decide

example : ProjectToTarget "owner/repo:file" "gitlab" "main" = none := by decide

example : ProjectToTarget "owner/repo:file" "cli" "main" = none := by decide

example : ProjectToTarget "owner/repo:file" "" "main" = none := by decide

example : ProjectToTarget "myorg/myproject:src/package.json" "azure-repos" "develop" = some (.path "myorg" "myproject" "develop") := by decide

example : TargetID "org-1" "int-1" (.path "owner" "repo" "main") = "org-1:int-1:repo:owner:main" := by decide

example : TargetID "org-2" "int-2" (.keySlug "PROJ" "slug") = "org-2:int-2:PROJ:slug" := by decide

example : OriginToIntegrationKey "bitbucket-cloud-app" = "bitbucket-connect-app" := by decide

example : OriginToIntegrationKey "github" = "github" := by decide
